import Mathlib

/-!
Verification of the row-expansion and image-ID resolution engine of the
NikiVibes image processor.  The definitions below are a shallow embedding of
`src/processors/image_processor.py` (media cache construction, identifier
width inference, tokenization, row expansion, post-expansion URL backfill)
and of the output finalization in `main.py` (top-row marker handling and
boolean column rendering).  Cells that pandas may hold as NaN/None are
modelled as `Option String` (`none` = NaN/None/missing).
-/

namespace NV

/-! ### Character and string helpers -/

/-- ASCII lower-casing of a character, as Python `str.lower` acts on the
identifiers and markers occurring here. -/
def asciiLower (c : Char) : Char :=
  if 65 ≤ c.toNat ∧ c.toNat ≤ 90 then Char.ofNat (c.toNat + 32) else c

/-- Lower-case a string (Python `str.lower`). -/
def lowerStr (s : String) : String := String.mk (s.data.map asciiLower)

/-- The whitespace characters stripped by Python `str.strip` and matched by
the `\s` class in the splitting regex. -/
def isSpaceChar (c : Char) : Bool :=
  c = ' ' || c = '\t' || c = '\n' || c = '\r' || c = '\x0b' || c = '\x0c'

/-- Python `str.strip`: drop whitespace from both ends. -/
def trimStr (s : String) : String :=
  String.mk (((s.data.dropWhile isSpaceChar).reverse.dropWhile isSpaceChar).reverse)

/-- Python `re.sub(r"\D", "", s)`: keep only the digit characters. -/
def digitsOf (s : String) : String := String.mk (s.data.filter Char.isDigit)

/-- A delimiter of the identifier field: `re.split(r"[\s,;]+", ...)`. -/
def isDelimChar (c : Char) : Bool := isSpaceChar c || c = ',' || c = ';'

/-- Split a character list at delimiter characters; pieces between adjacent
delimiters are emitted as empty lists, exactly as `re.split` emits empty
strings (they are filtered away afterwards, like the source's
`[t for t in raw_tokens if t]`). -/
def splitCharsAux : List Char → List Char → List (List Char)
  | cur, [] => [cur.reverse]
  | cur, c :: cs =>
    if isDelimChar c then cur.reverse :: splitCharsAux [] cs
    else splitCharsAux (c :: cur) cs

/-- Split the raw field on whitespace/comma/semicolon runs and drop the empty
tokens. -/
def splitDelims (s : String) : List String :=
  ((splitCharsAux [] s.data).map String.mk).filter (fun t => t ≠ "")

/-- Chunking of a digit run into consecutive `w`-character pieces
(`[digits[i:i+w] for i in range(0, len(digits), w)]`), with a fuel argument
for structural recursion; the fuel is instantiated with the length of the
list, which suffices for every positive `w`. -/
def chunkCharsAux : Nat → Nat → List Char → List (List Char)
  | 0, _, _ => []
  | _ + 1, _, [] => []
  | fuel + 1, w, c :: cs => ((c :: cs).take w) :: chunkCharsAux fuel w ((c :: cs).drop w)

/-- Split a digit string into consecutive `w`-digit chunks, left to right. -/
def chunkStr (w : Nat) (s : String) : List String :=
  (chunkCharsAux s.data.length w s.data).map String.mk

/-- Concatenation of a list of strings. -/
def strJoin (l : List String) : String := String.mk ((l.map String.data).flatten)

/-! ### Deduplication preserving first occurrence -/

/-- The source's `[x for x in image_ids if not (x in seen or seen.add(x))]`:
keep an element only on its first appearance. -/
def dedupGo : List String → List String → List String
  | _, [] => []
  | seen, x :: xs => if x ∈ seen then dedupGo seen xs else x :: dedupGo (x :: seen) xs

/-- Deduplicate a list of identifiers preserving first-occurrence order. -/
def dedupFirst (l : List String) : List String := dedupGo [] l

/-- Index of the first occurrence of `x` (length of the list when absent). -/
def firstIdx {α : Type} [DecidableEq α] (x : α) : List α → Nat
  | [] => 0
  | y :: ys => if y = x then 0 else firstIdx x ys + 1

/-! ### Identifier tokenizer -/

/-- The null-like test on the raw field: after stripping, the field is empty
or reads `nan`/`none` case-insensitively
(`not variant_images or variant_images.lower() in ('', 'nan', 'none')`). -/
def isNullLike (s : String) : Bool :=
  let v := trimStr s
  v = "" || lowerStr v = "nan" || lowerStr v = "none"

/-- Per-token classification: strip to digits; accept an exact-width token;
chunk a clean multiple of the width; reject everything else. -/
def classifyToken (t : String) (w : Nat) : List String :=
  let d := digitsOf t
  if d = "" then []
  else if d.length = w then [d]
  else if 0 < w ∧ d.length % w = 0 ∧ w < d.length then chunkStr w d
  else []

/-- Accepted identifiers of the raw field, in encounter order, before
deduplication (the loop building `image_ids`). -/
def tokenizeRaw (raw : String) (w : Nat) : List String :=
  let v := trimStr raw
  if isNullLike raw then []
  else (splitDelims v).foldl (fun acc t => acc ++ classifyToken t w) []

/-- The tokenizer's final accepted identifier sequence. -/
def tokenize (raw : String) (w : Nat) : List String := dedupFirst (tokenizeRaw raw w)

/-! ### Media lookup construction (`_build_media_cache`) -/

/-- The url/alt payload stored per canonical identifier. -/
structure MediaData where
  url : String
  alt : String
deriving DecidableEq

/-- One row of the media table; `none` models a NaN/None/missing cell. -/
structure MediaRow where
  id : Option String
  url : Option String
  alt : Option String
deriving DecidableEq

/-- `'' if pd.isna(cell) else str(cell)`. -/
def cellStr : Option String → String
  | none => ""
  | some s => s

/-- Digit-normalized id of a media row
(`id_str = '' if raw_id is None else str(raw_id).strip()` followed by
`re.sub(r"\D", "", id_str)`). -/
def idDigits (r : MediaRow) : String := digitsOf (trimStr (cellStr r.id))

/-- Url cleaning: NaN/None/missing becomes the empty string, any other value
is kept verbatim. -/
def cleanUrl : Option String → String
  | none => ""
  | some s => s

/-- Alt cleaning as applied both in the cache build and per derived row:
strip, then map a literal `nan`/`none` (case-insensitive) to empty. -/
def cleanAltStr (s : String) : String :=
  let a := trimStr s
  if lowerStr a = "nan" ∨ lowerStr a = "none" then "" else a

/-- Alt cleaning of a media cell. -/
def cleanAlt (c : Option String) : String := cleanAltStr (cellStr c)

/-- The cache entry contributed by one media row, if any: rows whose digit
extraction is empty are skipped. -/
def mediaEntry (r : MediaRow) : Option (String × MediaData) :=
  let d := idDigits r
  if d = "" then none else some (d, ⟨cleanUrl r.url, cleanAlt r.alt⟩)

/-- The media cache as an insertion-ordered association list; Python dict
overwrite semantics are obtained by `cacheLookup` returning the last
matching entry. -/
def buildCacheList (rows : List MediaRow) : List (String × MediaData) :=
  rows.filterMap mediaEntry

/-- The observed digit lengths (`id_lengths`), duplicates included. -/
def idLengths (rows : List MediaRow) : List Nat :=
  (rows.filterMap mediaEntry).map (fun e => e.1.length)

/-- Dictionary lookup: the last entry with the given key wins. -/
def cacheLookup (c : List (String × MediaData)) (k : String) : Option MediaData :=
  match c.reverse.find? (fun e => e.1 == k) with
  | some e => some e.2
  | none => none

/-! ### Canonical width inference -/

/-- Does `x` have a maximal multiplicity in `l`? -/
def maxCountAll (l : List Nat) (x : Nat) : Bool :=
  l.all (fun y => l.count y ≤ l.count x)

/-- `statistics.mode` on Python ≥ 3.8: the first element (in encounter
order) whose multiplicity is maximal; `none` only on the empty list. -/
def modeFirst (l : List Nat) : Option Nat := l.find? (maxCountAll l)

/-- The sanity clamp (`if self._id_len <= 0 or self._id_len > 20: self._id_len = 5`). -/
def clampWidth (w : Nat) : Nat := if w = 0 ∨ 20 < w then 5 else w

/-- Width inference: keep the default 5 when no lengths were observed,
otherwise take the mode; reset to 5 outside the sanity range `[1, 20]`. -/
def inferWidth (lengths : List Nat) : Nat :=
  clampWidth
    (match lengths with
     | [] => 5
     | _ :: _ =>
       match modeFirst lengths with
       | some m => m
       | none => 5)

/-- The canonical identifier width inferred from a media table. -/
def widthOfTable (rows : List MediaRow) : Nat := inferWidth (idLengths rows)

/-! ### Product rows and row expansion -/

/-- A product row: the five columns the engine reads or writes, plus the
remaining columns carried along unchanged. -/
structure Row where
  handle : String
  variantImages : String
  imageSrc : String
  imageAlt : String
  option1 : String
  rest : List (String × String)
deriving DecidableEq

/-- One derived row for a resolved identifier: a copy of the original row
with the identifier field, URL field and alt-text field overwritten. -/
def mkDerivedRow (cache : List (String × MediaData)) (row : Row) (imgId : String) : Row :=
  let media := cacheLookup cache imgId
  let url := match media with | some m => m.url | none => ""
  let altText := cleanAltStr (match media with | some m => m.alt | none => "")
  let color := trimStr row.option1
  let newAlt :=
    if color ≠ "" ∧ altText ≠ "" then "color:" ++ color ++ " | " ++ altText
    else if altText ≠ "" then altText
    else if color ≠ "" then "color:" ++ color
    else row.imageAlt
  { row with variantImages := imgId, imageSrc := url, imageAlt := newAlt }

/-- Expansion of one product row: the original first, then one derived row
per resolved identifier, in tokenized order. -/
def expandRow (cache : List (String × MediaData)) (w : Nat) (row : Row) : List Row :=
  row :: (tokenize row.variantImages w).map (mkDerivedRow cache row)

/-- Expansion of the whole product table, in input row order. -/
def expandStage (cache : List (String × MediaData)) (w : Nat) (rows : List Row) : List Row :=
  rows.flatMap (expandRow cache w)

/-! ### Post-expansion validation (`fill_url`) -/

/-- One application of `fill_url` to a row: the (possibly) updated row, the
increment of `fixed_count`, and the identifier to record as missing, if
any. -/
def fillUrlRow (cache : List (String × MediaData)) (r : Row) : Row × Nat × Option String :=
  let vidRaw := trimStr r.variantImages
  if vidRaw = "" then (r, 0, none)
  else
    let vid := digitsOf vidRaw
    if vid = "" then (r, 0, none)
    else
      let currentUrl := trimStr r.imageSrc
      match cacheLookup cache vid with
      | some media =>
        if currentUrl = "" then
          ({ r with imageSrc := media.url }, if media.url = "" then 0 else 1, none)
        else (r, 0, none)
      | none => (r, 0, some vid)

/-- `result_df.apply(fill_url, axis=1)` with the two `nonlocal` counters:
returns the updated rows, the final `fixed_count`, and the missing-id sample
(capped at 50 entries). -/
def validateGo (cache : List (String × MediaData)) :
    List Row → Nat → List String → List Row × Nat × List String
  | [], f, m => ([], f, m)
  | r :: rs, f, m =>
    let step := fillUrlRow cache r
    let f1 := f + step.2.1
    let m1 :=
      match step.2.2 with
      | some v => if m.length < 50 then m ++ [v] else m
      | none => m
    let rest := validateGo cache rs f1 m1
    (step.1 :: rest.1, rest.2.1, rest.2.2)

/-- The validation pass over the expanded table. -/
def validateRows (cache : List (String × MediaData)) (rows : List Row) :
    List Row × Nat × List String :=
  validateGo cache rows 0 []

/-- The full image-processing pipeline of `ImageProcessor.process`: build the
cache and width from the media table, expand the product rows, then run the
URL backfill. -/
def processTables (products : List Row) (media : List MediaRow) :
    List Row × Nat × List String :=
  let cache := buildCacheList media
  let w := widthOfTable media
  validateRows cache (expandStage cache w products)

/-! ### Output finalization (`main.py`): top-row marker and booleans -/

/-- A row of the final table as far as `main.py` touches it: the handle, the
detected top-row marker column, and one representative boolean-typed
column. -/
structure TRow where
  handle : String
  top : String
  flag : Bool
deriving DecidableEq

/-- The persisted form of a `TRow`: the boolean column rendered as text. -/
structure ORow where
  handle : String
  top : String
  flag : String
deriving DecidableEq

/-- `is_truthy` on a string cell. -/
def truthyStr (s : String) : Bool :=
  let v := lowerStr (trimStr s)
  v = "true" || v = "1" || v = "yes" || v = "y"

/-- The top-row pass: blank the marker on blank-handle rows and on every row
of a handle-group but the first; on the first row of a group keep `TRUE`
only when the original value was truthy.  `seen` holds the handles whose
group head was already emitted. -/
def topPass : List String → List TRow → List TRow
  | _, [] => []
  | seen, r :: rs =>
    if trimStr r.handle = "" then { r with top := "" } :: topPass seen rs
    else if r.handle ∈ seen then { r with top := "" } :: topPass seen rs
    else { r with top := if truthyStr r.top then "TRUE" else "" } :: topPass (r.handle :: seen) rs

/-- Was the handle seen among the first `i` rows?  (Positional
characterization of "first row of a handle-group".) -/
def handleBefore (h : String) (rows : List TRow) (i : Nat) : Bool :=
  (rows.take i).any (fun r => r.handle == h)

/-- Render the boolean column as the literal strings `TRUE`/`FALSE`. -/
def renderRow (r : TRow) : ORow := ⟨r.handle, r.top, if r.flag then "TRUE" else "FALSE"⟩

/-- The output finalization of `process_files`. -/
def finalizeTable (rows : List TRow) : List ORow := (topPass [] rows).map renderRow

/-! ## Helper lemmas -/

theorem strMk_data (s : String) : String.mk s.data = s := by cases s; rfl

theorem foldl_append_eq (f : String → List String) :
    ∀ (l : List String) (acc : List String),
      l.foldl (fun a t => a ++ f t) acc = acc ++ l.flatMap f := by
  intro l
  induction l with
  | nil => intro acc; simp
  | cons t ts ih =>
    intro acc
    simp only [List.foldl_cons, List.flatMap_cons]
    rw [ih (acc ++ f t), List.append_assoc]

theorem chunkAux_flatten :
    ∀ (fuel w : Nat) (l : List Char), l.length ≤ fuel → 0 < w →
      (chunkCharsAux fuel w l).flatten = l := by
  intro fuel
  induction fuel with
  | zero =>
    intro w l hl _
    have hl0 : l = [] := List.length_eq_zero.mp (Nat.le_zero.mp hl)
    subst hl0; rfl
  | succ fuel ih =>
    intro w l hl hw
    cases l with
    | nil => rfl
    | cons c cs =>
      show (((c :: cs).take w) :: chunkCharsAux fuel w ((c :: cs).drop w)).flatten = c :: cs
      rw [List.flatten_cons]
      rw [ih w ((c :: cs).drop w) ?_ hw, List.take_append_drop]
      rw [List.length_drop]
      have hlen : (c :: cs).length ≤ fuel + 1 := hl
      omega

theorem chunkAux_mem_len :
    ∀ (fuel w : Nat) (l : List Char), l.length ≤ fuel → 0 < w → w ∣ l.length →
      ∀ c ∈ chunkCharsAux fuel w l, c.length = w := by
  intro fuel
  induction fuel with
  | zero =>
    intro w l hl _ _ c hc
    have hl0 : l = [] := List.length_eq_zero.mp (Nat.le_zero.mp hl)
    subst hl0; simp [chunkCharsAux] at hc
  | succ fuel ih =>
    intro w l hl hw hd c hc
    cases l with
    | nil => simp [chunkCharsAux] at hc
    | cons a as =>
      rw [show chunkCharsAux (fuel + 1) w (a :: as)
            = ((a :: as).take w) :: chunkCharsAux fuel w ((a :: as).drop w) from rfl] at hc
      have hwle : w ≤ (a :: as).length := Nat.le_of_dvd (by simp) hd
      rcases List.mem_cons.mp hc with h | h
      · subst h; rw [List.length_take]; exact min_eq_left hwle
      · refine ih w ((a :: as).drop w) ?_ hw ?_ c h
        · rw [List.length_drop]
          have hlen : (a :: as).length ≤ fuel + 1 := hl
          omega
        · rw [List.length_drop]; exact Nat.dvd_sub' hd dvd_rfl

theorem chunkStr_flatten (w : Nat) (s : String) (hw : 0 < w) :
    strJoin (chunkStr w s) = s := by
  unfold strJoin chunkStr
  rw [List.map_map, show (String.data ∘ String.mk) = id from rfl, List.map_id]
  rw [chunkAux_flatten s.data.length w s.data (le_refl _) hw, strMk_data]

theorem chunkStr_len (w : Nat) (s : String) (hw : 0 < w) (hd : w ∣ s.length) :
    ∀ c ∈ chunkStr w s, c.length = w := by
  intro c hc
  unfold chunkStr at hc
  rcases List.mem_map.mp hc with ⟨cl, hcl, rfl⟩
  exact chunkAux_mem_len s.data.length w s.data (le_refl _) hw hd cl hcl

theorem dedupGo_mem : ∀ (l seen : List String) (x : String),
    x ∈ dedupGo seen l ↔ (x ∈ l ∧ x ∉ seen) := by
  intro l
  induction l with
  | nil => intro seen x; simp [dedupGo]
  | cons y ys ih =>
    intro seen x
    by_cases hy : y ∈ seen
    · rw [show dedupGo seen (y :: ys) = dedupGo seen ys from by simp [dedupGo, hy]]
      rw [ih seen x]
      constructor
      · rintro ⟨hx, hs⟩; exact ⟨List.mem_cons_of_mem _ hx, hs⟩
      · rintro ⟨hx, hs⟩
        rcases List.mem_cons.mp hx with rfl | hx
        · exact absurd hy hs
        · exact ⟨hx, hs⟩
    · rw [show dedupGo seen (y :: ys) = y :: dedupGo (y :: seen) ys from by simp [dedupGo, hy]]
      rw [List.mem_cons, ih (y :: seen) x]
      constructor
      · rintro (rfl | ⟨hx, hs⟩)
        · exact ⟨List.mem_cons_self _ _, hy⟩
        · exact ⟨List.mem_cons_of_mem _ hx, fun hxs => hs (List.mem_cons_of_mem _ hxs)⟩
      · rintro ⟨hx, hs⟩
        by_cases hxy : x = y
        · exact Or.inl hxy
        · right
          rcases List.mem_cons.mp hx with rfl | hx2
          · exact absurd rfl hxy
          · refine ⟨hx2, fun hmem => ?_⟩
            rcases List.mem_cons.mp hmem with rfl | h2
            · exact hxy rfl
            · exact hs h2

theorem dedupGo_nodup : ∀ (l seen : List String), (dedupGo seen l).Nodup := by
  intro l
  induction l with
  | nil => intro seen; simp [dedupGo]
  | cons y ys ih =>
    intro seen
    by_cases hy : y ∈ seen
    · rw [show dedupGo seen (y :: ys) = dedupGo seen ys from by simp [dedupGo, hy]]
      exact ih seen
    · rw [show dedupGo seen (y :: ys) = y :: dedupGo (y :: seen) ys from by simp [dedupGo, hy]]
      refine List.nodup_cons.mpr ⟨?_, ih (y :: seen)⟩
      intro hmem
      exact ((dedupGo_mem ys (y :: seen) y).mp hmem).2 (List.mem_cons_self _ _)

theorem firstIdx_cons_self {α : Type} [DecidableEq α] (x : α) (l : List α) :
    firstIdx x (x :: l) = 0 := by simp [firstIdx]

theorem firstIdx_cons_ne {α : Type} [DecidableEq α] {x y : α} (h : y ≠ x) (l : List α) :
    firstIdx x (y :: l) = firstIdx x l + 1 := by simp [firstIdx, h]

theorem dedupGo_pairwise : ∀ (l seen : List String),
    (dedupGo seen l).Pairwise (fun a b => firstIdx a l < firstIdx b l) := by
  intro l
  induction l with
  | nil => intro seen; simp [dedupGo]
  | cons y ys ih =>
    intro seen
    by_cases hy : y ∈ seen
    · rw [show dedupGo seen (y :: ys) = dedupGo seen ys from by simp [dedupGo, hy]]
      refine (ih seen).imp_of_mem ?_
      intro a b ha hb hab
      have hay : a ≠ y := fun h => ((dedupGo_mem ys seen a).mp ha).2 (h ▸ hy)
      have hby : b ≠ y := fun h => ((dedupGo_mem ys seen b).mp hb).2 (h ▸ hy)
      rw [firstIdx_cons_ne (Ne.symm hay), firstIdx_cons_ne (Ne.symm hby)]
      omega
    · rw [show dedupGo seen (y :: ys) = y :: dedupGo (y :: seen) ys from by simp [dedupGo, hy]]
      refine List.pairwise_cons.mpr ⟨?_, ?_⟩
      · intro b hb
        have hby : b ≠ y :=
          fun h => ((dedupGo_mem ys (y :: seen) b).mp hb).2 (h ▸ List.mem_cons_self y seen)
        rw [firstIdx_cons_self, firstIdx_cons_ne (Ne.symm hby)]
        omega
      · refine (ih (y :: seen)).imp_of_mem ?_
        intro a b ha hb hab
        have hay : a ≠ y :=
          fun h => ((dedupGo_mem ys (y :: seen) a).mp ha).2 (h ▸ List.mem_cons_self y seen)
        have hby : b ≠ y :=
          fun h => ((dedupGo_mem ys (y :: seen) b).mp hb).2 (h ▸ List.mem_cons_self y seen)
        rw [firstIdx_cons_ne (Ne.symm hay), firstIdx_cons_ne (Ne.symm hby)]
        omega

theorem exists_max_nat (f : Nat → Nat) : ∀ (l : List Nat), l ≠ [] →
    ∃ x ∈ l, ∀ y ∈ l, f y ≤ f x := by
  intro l
  induction l with
  | nil => intro h; exact absurd rfl h
  | cons a as ih =>
    intro _
    cases as with
    | nil =>
      refine ⟨a, List.mem_cons_self _ _, ?_⟩
      intro y hy
      rcases List.mem_cons.mp hy with rfl | h
      · exact le_refl _
      · simp at h
    | cons b bs =>
      obtain ⟨x, hx, hmax⟩ := ih (by simp)
      by_cases hax : f a ≤ f x
      · refine ⟨x, List.mem_cons_of_mem _ hx, ?_⟩
        intro y hy
        rcases List.mem_cons.mp hy with rfl | h
        · exact hax
        · exact hmax y h
      · refine ⟨a, List.mem_cons_self _ _, ?_⟩
        intro y hy
        rcases List.mem_cons.mp hy with rfl | h
        · exact le_refl _
        · exact le_trans (hmax y h) (le_of_not_le hax)

theorem find?_first {α : Type} [DecidableEq α] {p : α → Bool} :
    ∀ (l : List α) (m : α), l.find? p = some m →
      ∀ y ∈ l, p y = true → firstIdx m l ≤ firstIdx y l := by
  intro l
  induction l with
  | nil => intro m h; simp [List.find?] at h
  | cons a as ih =>
    intro m h y hy hpy
    cases hpa : p a with
    | true =>
      simp [List.find?_cons, hpa] at h
      subst h
      rw [firstIdx_cons_self]
      exact Nat.zero_le _
    | false =>
      simp only [List.find?_cons, hpa] at h
      have hpm := List.find?_some h
      have hma : m ≠ a := fun e => by rw [e, hpa] at hpm; cases hpm
      rcases List.mem_cons.mp hy with rfl | hys
      · rw [hpy] at hpa; cases hpa
      · have hya : y ≠ a := fun e => by rw [e, hpa] at hpy; cases hpy
        rw [firstIdx_cons_ne (Ne.symm hma), firstIdx_cons_ne (Ne.symm hya)]
        exact Nat.succ_le_succ (ih m h y hys hpy)

theorem clampWidth_bounds (w : Nat) : 1 ≤ clampWidth w ∧ clampWidth w ≤ 20 := by
  unfold clampWidth
  by_cases hc : w = 0 ∨ 20 < w
  · rw [if_pos hc]; omega
  · rw [if_neg hc]; omega

theorem inferWidth_of_mode (l : List Nat) (m : Nat) (h : modeFirst l = some m) :
    inferWidth l = clampWidth m := by
  cases l with
  | nil => simp [modeFirst, List.find?] at h
  | cons a t => simp [inferWidth, h]

theorem fillUrlRow_fields (cache : List (String × MediaData)) (r : Row) :
    (fillUrlRow cache r).1.handle = r.handle ∧
    (fillUrlRow cache r).1.variantImages = r.variantImages ∧
    (fillUrlRow cache r).1.imageAlt = r.imageAlt ∧
    (fillUrlRow cache r).1.option1 = r.option1 ∧
    (fillUrlRow cache r).1.rest = r.rest := by
  by_cases h1 : trimStr r.variantImages = ""
  · simp [fillUrlRow, h1]
  · by_cases h2 : digitsOf (trimStr r.variantImages) = ""
    · simp [fillUrlRow, h1, h2]
    · cases hm : cacheLookup cache (digitsOf (trimStr r.variantImages)) with
      | none => simp [fillUrlRow, h1, h2, hm]
      | some media =>
        by_cases h3 : trimStr r.imageSrc = ""
        · simp [fillUrlRow, h1, h2, hm, h3]
        · simp [fillUrlRow, h1, h2, hm, h3]

theorem fillUrlRow_second (cache : List (String × MediaData)) (r : Row) :
    (fillUrlRow cache (fillUrlRow cache r).1).1 = (fillUrlRow cache r).1 ∧
    ((∀ k mm, cacheLookup cache k = some mm → trimStr mm.url = "" → mm.url = "") →
      (fillUrlRow cache (fillUrlRow cache r).1).2.1 = 0) := by
  by_cases h1 : trimStr r.variantImages = ""
  · simp [fillUrlRow, h1]
  · by_cases h2 : digitsOf (trimStr r.variantImages) = ""
    · simp [fillUrlRow, h1, h2]
    · cases hm : cacheLookup cache (digitsOf (trimStr r.variantImages)) with
      | none => simp [fillUrlRow, h1, h2, hm]
      | some media =>
        by_cases h3 : trimStr r.imageSrc = ""
        · by_cases h4 : trimStr media.url = ""
          · constructor
            · simp [fillUrlRow, h1, h2, hm, h3, h4]
            · intro hc
              have hurl : media.url = "" := hc _ media hm h4
              simp [fillUrlRow, h1, h2, hm, h3, h4, hurl]
          · constructor
            · simp [fillUrlRow, h1, h2, hm, h3, h4]
            · intro _; simp [fillUrlRow, h1, h2, hm, h3, h4]
        · simp [fillUrlRow, h1, h2, hm, h3]

theorem validateGo_fst (cache : List (String × MediaData)) :
    ∀ (l : List Row) (f : Nat) (m : List String),
      (validateGo cache l f m).1 = l.map (fun r => (fillUrlRow cache r).1) := by
  intro l
  induction l with
  | nil => intro f m; rfl
  | cons r rs ih =>
    intro f m
    show (fillUrlRow cache r).1 :: (validateGo cache rs _ _).1
        = (fillUrlRow cache r).1 :: rs.map (fun r => (fillUrlRow cache r).1)
    rw [ih]

theorem validateGo_missing_le (cache : List (String × MediaData)) :
    ∀ (l : List Row) (f : Nat) (m : List String),
      m.length ≤ 50 → (validateGo cache l f m).2.2.length ≤ 50 := by
  intro l
  induction l with
  | nil => intro f m h; exact h
  | cons r rs ih =>
    intro f m h
    show (validateGo cache rs _ _).2.2.length ≤ 50
    apply ih
    cases hs : (fillUrlRow cache r).2.2 with
    | none => simpa [hs] using h
    | some v =>
      by_cases hlen : m.length < 50
      · simp [hs, hlen]; omega
      · simpa [hs, hlen] using h

theorem map_fillUrl_id (cache : List (String × MediaData)) :
    ∀ (l : List Row), (∀ r' ∈ l, (fillUrlRow cache r').1 = r') →
      l.map (fun r => (fillUrlRow cache r).1) = l := by
  intro l
  induction l with
  | nil => intro _; rfl
  | cons r rs ih =>
    intro h
    rw [List.map_cons, h r (List.mem_cons_self _ _),
      ih (fun r' hr' => h r' (List.mem_cons_of_mem _ hr'))]

theorem validateGo_fixed_of_fix (cache : List (String × MediaData)) :
    ∀ (l : List Row) (f : Nat) (m : List String),
      (∀ r ∈ l, (fillUrlRow cache r).1 = r ∧ (fillUrlRow cache r).2.1 = 0) →
      (validateGo cache l f m).1 = l ∧ (validateGo cache l f m).2.1 = f := by
  intro l
  induction l with
  | nil => intro f m _; exact ⟨rfl, rfl⟩
  | cons r rs ih =>
    intro f m hfix
    have hr := hfix r (List.mem_cons_self _ _)
    have hrs := fun r' hr' => hfix r' (List.mem_cons_of_mem _ hr')
    refine ⟨?_, ?_⟩
    · show (fillUrlRow cache r).1 :: (validateGo cache rs _ _).1 = r :: rs
      rw [hr.1, (ih _ _ hrs).1]
    · show (validateGo cache rs (f + (fillUrlRow cache r).2.1) _).2.1 = f
      rw [(ih _ _ hrs).2, hr.2]
      omega

theorem topPass_length : ∀ (seen : List String) (rows : List TRow),
    (topPass seen rows).length = rows.length := by
  intro seen rows
  induction rows generalizing seen with
  | nil => rfl
  | cons x xs ih =>
    by_cases h1 : trimStr x.handle = ""
    · simp [topPass, h1, ih]
    · by_cases h2 : x.handle ∈ seen
      · simp [topPass, h1, h2, ih]
      · simp [topPass, h1, h2, ih]

theorem topPass_get : ∀ (rows : List TRow) (seen : List String) (i : Nat) (r : TRow),
    rows.get? i = some r →
    (topPass seen rows).get? i = some { r with top :=
      if (trimStr r.handle ≠ "" ∧ r.handle ∉ seen ∧ handleBefore r.handle rows i = false
          ∧ truthyStr r.top = true)
      then "TRUE" else "" } := by
  intro rows
  induction rows with
  | nil => intro seen i r h; simp at h
  | cons x xs ih =>
    intro seen i r h
    cases i with
    | zero =>
      rw [List.get?_cons_zero] at h
      injection h with h
      subst h
      by_cases h1 : trimStr x.handle = ""
      · simp [topPass, h1]
      · by_cases h2 : x.handle ∈ seen
        · simp [topPass, h1, h2]
        · by_cases h3 : truthyStr x.top <;>
            simp [topPass, h1, h2, h3, handleBefore]
    | succ j =>
      rw [List.get?_cons_succ] at h
      have hbf : handleBefore r.handle (x :: xs) (j + 1)
          = ((x.handle == r.handle) || handleBefore r.handle xs j) := by
        simp [handleBefore, List.take_succ_cons, List.any_cons]
      by_cases h1 : trimStr x.handle = ""
      · rw [show topPass seen (x :: xs) = { x with top := "" } :: topPass seen xs from by
          simp [topPass, h1]]
        rw [List.get?_cons_succ, ih seen j r h, hbf]
        by_cases hxy : x.handle = r.handle
        · have hA : trimStr r.handle = "" := hxy ▸ h1
          simp [hA]
        · simp [beq_eq_false_iff_ne.mpr hxy]
      · by_cases h2 : x.handle ∈ seen
        · rw [show topPass seen (x :: xs) = { x with top := "" } :: topPass seen xs from by
            simp [topPass, h1, h2]]
          rw [List.get?_cons_succ, ih seen j r h, hbf]
          by_cases hxy : x.handle = r.handle
          · have hseen : r.handle ∈ seen := hxy ▸ h2
            simp [hseen]
          · simp [beq_eq_false_iff_ne.mpr hxy]
        · rw [show topPass seen (x :: xs)
              = { x with top := if truthyStr x.top then "TRUE" else "" }
                :: topPass (x.handle :: seen) xs from by simp [topPass, h1, h2]]
          rw [List.get?_cons_succ, ih (x.handle :: seen) j r h, hbf]
          by_cases hxy : x.handle = r.handle
          · simp [hxy, List.mem_cons]
          · have hne : r.handle ≠ x.handle := fun hh => hxy hh.symm
            simp [beq_eq_false_iff_ne.mpr hxy, List.mem_cons, hne]

theorem find?_isSome_of_ex {α : Type} {p : α → Bool} :
    ∀ (l : List α), (∃ x ∈ l, p x = true) → ∃ m, l.find? p = some m := by
  intro l
  induction l with
  | nil => rintro ⟨x, hx, _⟩; simp at hx
  | cons a as ih =>
    rintro ⟨x, hx, hpx⟩
    cases hpa : p a with
    | true => exact ⟨a, by simp [List.find?_cons, hpa]⟩
    | false =>
      rcases List.mem_cons.mp hx with rfl | hxs
      · rw [hpx] at hpa; cases hpa
      · obtain ⟨m, hm⟩ := ih ⟨x, hxs, hpx⟩
        exact ⟨m, by simp [List.find?_cons, hpa, hm]⟩

/-! ## Claim theorems -/

/-- C1, counterexample: a media table with digit lengths `[5, 7]` (a tie)
yields canonical width 5 — the first mode in encounter order — and not the
median 6 the claim requires. -/
theorem c1_width_tie_counterexample :
    idLengths [⟨some "12345", none, none⟩, ⟨some "1234567", none, none⟩] = [5, 7] ∧
    widthOfTable [⟨some "12345", none, none⟩, ⟨some "1234567", none, none⟩] = 5 ∧
    widthOfTable [⟨some "12345", none, none⟩, ⟨some "1234567", none, none⟩] ≠ 6 := by
  decide

/-- C1, amended: the canonical width is the statistical mode of the observed
digit lengths with ties broken towards the value encountered first (the
median fallback is dead code: the mode computation never fails on a
non-empty length list); with no observed lengths the width is 5; a width
outside `[1, 20]` is reset to 5.  In particular `[5,5,5,7]` gives width 5,
the tie `[5,7]` gives width 5 (not 6), and an empty media table gives
width 5. -/
theorem c1_width_inference_amended :
    (∀ rows : List MediaRow, idLengths rows = [] → widthOfTable rows = 5) ∧
    (∀ rows : List MediaRow, 1 ≤ widthOfTable rows ∧ widthOfTable rows ≤ 20) ∧
    (∀ rows : List MediaRow, idLengths rows ≠ [] →
      ∃ m, modeFirst (idLengths rows) = some m) ∧
    (∀ (rows : List MediaRow) (m : Nat), modeFirst (idLengths rows) = some m →
      m ∈ idLengths rows ∧
      (∀ y ∈ idLengths rows, (idLengths rows).count y ≤ (idLengths rows).count m) ∧
      (∀ y ∈ idLengths rows, (idLengths rows).count y = (idLengths rows).count m →
        firstIdx m (idLengths rows) ≤ firstIdx y (idLengths rows)) ∧
      widthOfTable rows = clampWidth m) ∧
    widthOfTable [⟨some "12345", none, none⟩, ⟨some "54321", none, none⟩,
      ⟨some "11111", none, none⟩, ⟨some "1234567", none, none⟩] = 5 ∧
    widthOfTable [] = 5 := by
  refine ⟨?_, ?_, ?_, ?_, by decide, by decide⟩
  · intro rows h
    simp [widthOfTable, inferWidth, h, clampWidth]
  · intro rows
    exact clampWidth_bounds _
  · intro rows h
    apply find?_isSome_of_ex
    obtain ⟨x, hx, hmax⟩ := exists_max_nat (fun y => (idLengths rows).count y) _ h
    refine ⟨x, hx, ?_⟩
    simp only [maxCountAll, List.all_eq_true]
    intro y hy
    exact decide_eq_true (hmax y hy)
  · intro rows m h
    have hmem : m ∈ idLengths rows := List.mem_of_find?_eq_some h
    have hmax : ∀ y ∈ idLengths rows,
        (idLengths rows).count y ≤ (idLengths rows).count m := by
      have := List.find?_some h
      simp only [maxCountAll, List.all_eq_true] at this
      intro y hy
      exact of_decide_eq_true (this y hy)
    refine ⟨hmem, hmax, ?_, inferWidth_of_mode _ _ h⟩
    intro y hy hcnt
    apply find?_first _ m h y hy
    simp only [maxCountAll, List.all_eq_true]
    intro z hz
    exact decide_eq_true (hcnt ▸ hmax z hz)

/-- Witness for C1: the amended theorem applied to the empty table and to
the tie table `[5, 7]`. -/
theorem c1_width_inference_amended_witness :
    widthOfTable [] = 5 ∧
    widthOfTable [⟨some "12345", none, none⟩, ⟨some "1234567", none, none⟩]
      = clampWidth 5 :=
  ⟨c1_width_inference_amended.1 [] (by decide),
   (c1_width_inference_amended.2.2.2.1
      [⟨some "12345", none, none⟩, ⟨some "1234567", none, none⟩] 5 (by decide)).2.2.2⟩

/-- C2: for every positive canonical width, tokenization splits the raw
field on whitespace/comma/semicolon runs, strips each token to digits,
accepts an exact-width token, splits a token whose digit length is a larger
multiple of the width into consecutive width-sized chunks (which concatenate
back to the token's digits), rejects every other token, and maps an empty or
null-like field to the empty sequence; `Tokenize("123,456",3)`,
`Tokenize("123456",3)` and `Tokenize("1234",3)` behave as claimed. -/
theorem c2_tokenizer_rules (w : Nat) (hw : 0 < w) :
    (∀ raw, isNullLike raw = true → tokenizeRaw raw w = [] ∧ tokenize raw w = []) ∧
    (∀ raw, isNullLike raw = false →
      tokenizeRaw raw w = (splitDelims (trimStr raw)).flatMap (fun t => classifyToken t w)) ∧
    (∀ t, (digitsOf t).length = w → classifyToken t w = [digitsOf t]) ∧
    (∀ t, w < (digitsOf t).length → (digitsOf t).length % w = 0 →
      classifyToken t w = chunkStr w (digitsOf t) ∧
      (∀ c ∈ chunkStr w (digitsOf t), c.length = w) ∧
      strJoin (chunkStr w (digitsOf t)) = digitsOf t) ∧
    (∀ t, (digitsOf t).length ≠ w →
      ¬(w < (digitsOf t).length ∧ (digitsOf t).length % w = 0) →
      classifyToken t w = []) ∧
    tokenize "123,456" 3 = ["123", "456"] ∧
    tokenize "123456" 3 = ["123", "456"] ∧
    tokenize "1234" 3 = [] := by
  refine ⟨?_, ?_, ?_, ?_, ?_, by decide, by decide, by decide⟩
  · intro raw h
    constructor
    · simp [tokenizeRaw, h]
    · simp [tokenize, dedupFirst, tokenizeRaw, h, dedupGo]
  · intro raw h
    simp only [tokenizeRaw, h, Bool.false_eq_true, if_false]
    simpa using foldl_append_eq (fun t => classifyToken t w) (splitDelims (trimStr raw)) []
  · intro t h
    have hne : digitsOf t ≠ "" := by
      intro he
      rw [he] at h
      have h0 : ("" : String).length = 0 := rfl
      omega
    simp [classifyToken, hne, h]
  · intro t h1 h2
    have hne : digitsOf t ≠ "" := by
      intro he
      rw [he] at h1
      have h0 : ("" : String).length = 0 := rfl
      omega
    have hlen : (digitsOf t).length ≠ w := by omega
    have hdvd : w ∣ (digitsOf t).length := Nat.dvd_of_mod_eq_zero h2
    refine ⟨?_, chunkStr_len w _ hw hdvd, chunkStr_flatten w _ hw⟩
    simp [classifyToken, hne, hlen, hw, h1, h2]
  · intro t h1 h2
    by_cases hne : digitsOf t = ""
    · simp [classifyToken, hne]
    · have hc : ¬(0 < w ∧ (digitsOf t).length % w = 0 ∧ w < (digitsOf t).length) :=
        fun hc => h2 ⟨hc.2.2, hc.2.1⟩
      simp only [classifyToken, hne, h1]
      simp [hc]

/-- Witness for C2: the tokenizer rules applied at width 3. -/
theorem c2_tokenizer_rules_witness :
    tokenize "123,456" 3 = ["123", "456"] ∧ classifyToken "123" 3 = [digitsOf "123"] :=
  ⟨(c2_tokenizer_rules 3 (by decide)).2.2.2.2.2.1,
   (c2_tokenizer_rules 3 (by decide)).2.2.1 "123" (by decide)⟩

/-- C3: the final accepted identifier sequence is the accepted-token list
deduplicated; it has no duplicates, contains exactly the accepted tokens,
and lists them in strictly increasing order of first appearance;
`Tokenize("123,123,456",3) = ["123","456"]`. -/
theorem c3_dedup_first_occurrence (raw : String) (w : Nat) :
    tokenize raw w = dedupFirst (tokenizeRaw raw w) ∧
    (tokenize raw w).Nodup ∧
    (∀ x, x ∈ tokenize raw w ↔ x ∈ tokenizeRaw raw w) ∧
    (tokenize raw w).Pairwise
      (fun a b => firstIdx a (tokenizeRaw raw w) < firstIdx b (tokenizeRaw raw w)) ∧
    tokenize "123,123,456" 3 = ["123", "456"] := by
  refine ⟨rfl, ?_, ?_, ?_, by decide⟩
  · show (dedupGo [] (tokenizeRaw raw w)).Nodup
    exact dedupGo_nodup _ _
  · intro x
    show x ∈ dedupGo [] (tokenizeRaw raw w) ↔ _
    rw [dedupGo_mem]
    simp
  · show (dedupGo [] (tokenizeRaw raw w)).Pairwise _
    exact dedupGo_pairwise _ _

/-- C4: row expansion emits, in input row order, each original row unchanged
first, followed by one derived row per resolved identifier in tokenized
order; a derived row is a copy of the original with the identifier field set
to the resolved identifier and the URL field set to the lookup's url, or
empty when unmatched; a null-like raw identifier field yields exactly one
output row identical to the input row; the end-to-end example expands as
claimed. -/
theorem c4_row_expansion (cache : List (String × MediaData)) (w : Nat) (rows : List Row) :
    expandStage cache w rows
      = rows.flatMap (fun r => r :: (tokenize r.variantImages w).map (mkDerivedRow cache r)) ∧
    (∀ r : Row, isNullLike r.variantImages = true → expandRow cache w r = [r]) ∧
    (∀ (r : Row) (imgId : String),
      (mkDerivedRow cache r imgId).variantImages = imgId ∧
      (mkDerivedRow cache r imgId).handle = r.handle ∧
      (mkDerivedRow cache r imgId).option1 = r.option1 ∧
      (mkDerivedRow cache r imgId).rest = r.rest) ∧
    (∀ (r : Row) (imgId : String) (m : MediaData), cacheLookup cache imgId = some m →
      (mkDerivedRow cache r imgId).imageSrc = m.url) ∧
    (∀ (r : Row) (imgId : String), cacheLookup cache imgId = none →
      (mkDerivedRow cache r imgId).imageSrc = "") ∧
    expandStage [("001", ⟨"u1", "front"⟩), ("002", ⟨"u2", "back"⟩)] 3
        [⟨"shirt-1", "001,002", "", "", "Blue", []⟩]
      = [⟨"shirt-1", "001,002", "", "", "Blue", []⟩,
         ⟨"shirt-1", "001", "u1", "color:Blue | front", "Blue", []⟩,
         ⟨"shirt-1", "002", "u2", "color:Blue | back", "Blue", []⟩] := by
  refine ⟨rfl, ?_, ?_, ?_, ?_, by decide⟩
  · intro r h
    simp [expandRow, tokenize, dedupFirst, tokenizeRaw, h, dedupGo]
  · intro r imgId
    refine ⟨?_, ?_, ?_, ?_⟩ <;> simp [mkDerivedRow]
  · intro r imgId m h
    simp [mkDerivedRow, h]
  · intro r imgId h
    simp [mkDerivedRow, h]

/-- Witness for C4: a null-like row expands to itself, and an unmatched
identifier yields an empty URL field. -/
theorem c4_row_expansion_witness :
    expandRow [] 3 ⟨"h", " nan ", "", "", "", []⟩ = [⟨"h", " nan ", "", "", "", []⟩] ∧
    (mkDerivedRow [] ⟨"h", "", "", "", "", []⟩ "001").imageSrc = "" :=
  ⟨(c4_row_expansion [] 3 []).2.1 _ (by decide),
   (c4_row_expansion [] 3 []).2.2.2.2.1 _ "001" (by decide)⟩

/-- C5: on a derived row whose identifier matched a media record, the
alt-text field is built from the stripped option/color value and the
record's cleaned alt: both non-empty gives `color:{color} | {alt}`, only alt
gives the alt, only color gives `color:{color}`, and when both are empty the
field keeps the original row's value. -/
theorem c5_alt_text_formula (cache : List (String × MediaData)) (r : Row) (imgId : String)
    (m : MediaData) (hm : cacheLookup cache imgId = some m) :
    (trimStr r.option1 ≠ "" → cleanAltStr m.alt ≠ "" →
      (mkDerivedRow cache r imgId).imageAlt
        = "color:" ++ trimStr r.option1 ++ " | " ++ cleanAltStr m.alt) ∧
    (trimStr r.option1 = "" → cleanAltStr m.alt ≠ "" →
      (mkDerivedRow cache r imgId).imageAlt = cleanAltStr m.alt) ∧
    (trimStr r.option1 ≠ "" → cleanAltStr m.alt = "" →
      (mkDerivedRow cache r imgId).imageAlt = "color:" ++ trimStr r.option1) ∧
    (trimStr r.option1 = "" → cleanAltStr m.alt = "" →
      (mkDerivedRow cache r imgId).imageAlt = r.imageAlt) := by
  refine ⟨?_, ?_, ?_, ?_⟩ <;> intro h1 h2 <;> simp [mkDerivedRow, hm, h1, h2]

/-- Witness for C5: the `color="Red", alt="Front view"` case and the
both-empty case, at concrete rows. -/
theorem c5_alt_text_formula_witness :
    (mkDerivedRow [("1", ⟨"u", "Front view"⟩)] ⟨"h", "1", "", "prior", "Red", []⟩ "1").imageAlt
      = "color:" ++ trimStr "Red" ++ " | " ++ cleanAltStr "Front view" ∧
    (mkDerivedRow [("1", ⟨"u", ""⟩)] ⟨"h", "1", "", "prior", "", []⟩ "1").imageAlt
      = (⟨"h", "1", "", "prior", "", []⟩ : Row).imageAlt :=
  ⟨(c5_alt_text_formula [("1", ⟨"u", "Front view"⟩)] ⟨"h", "1", "", "prior", "Red", []⟩ "1"
      ⟨"u", "Front view"⟩ (by decide)).1 (by decide) (by decide),
   (c5_alt_text_formula [("1", ⟨"u", ""⟩)] ⟨"h", "1", "", "prior", "", []⟩ "1"
      ⟨"u", ""⟩ (by decide)).2.2.2 (by decide) (by decide)⟩

/-- C6: building the media lookup strips each id cell to digits, skips
records whose digit extraction is empty, normalizes NaN/None/missing url and
alt cells to the empty string, strips whitespace (and literal nan/none)
from alt, and resolves duplicate digit strings to the last occurrence. -/
theorem c6_media_cache_build :
    (∀ r : MediaRow, idDigits r = "" → mediaEntry r = none) ∧
    (∀ r : MediaRow, idDigits r ≠ "" →
      mediaEntry r = some (idDigits r, ⟨cleanUrl r.url, cleanAlt r.alt⟩)) ∧
    cleanUrl none = "" ∧ (∀ s, cleanUrl (some s) = s) ∧
    cleanAlt none = "" ∧ (∀ s, cleanAlt (some s) = cleanAltStr s) ∧
    (∀ s, lowerStr (trimStr s) ≠ "nan" → lowerStr (trimStr s) ≠ "none" →
      cleanAltStr s = trimStr s) ∧
    cleanAltStr " NaN " = "" ∧ cleanAltStr "  front view  " = "front view" ∧
    (∀ (rows : List MediaRow) (r : MediaRow), idDigits r = "" →
      buildCacheList (rows ++ [r]) = buildCacheList rows) ∧
    (∀ (rows : List MediaRow) (r : MediaRow), idDigits r ≠ "" → ∀ k,
      cacheLookup (buildCacheList (rows ++ [r])) k
        = if k = idDigits r then some ⟨cleanUrl r.url, cleanAlt r.alt⟩
          else cacheLookup (buildCacheList rows) k) ∧
    cacheLookup (buildCacheList
        [⟨some "123", some "uA", some " a "⟩, ⟨some "123", some "uB", some " b "⟩]) "123"
      = some ⟨"uB", "b"⟩ := by
  refine ⟨?_, ?_, rfl, fun s => rfl, rfl, fun s => rfl, ?_, by decide, by decide,
    ?_, ?_, by decide⟩
  · intro r h
    simp [mediaEntry, h]
  · intro r h
    simp [mediaEntry, h]
  · intro s h1 h2
    simp [cleanAltStr, h1, h2]
  · intro rows r h
    rw [buildCacheList, List.filterMap_append]
    simp [buildCacheList, mediaEntry, h]
  · intro rows r h k
    rw [buildCacheList, List.filterMap_append]
    rw [show List.filterMap mediaEntry [r] = [(idDigits r, ⟨cleanUrl r.url, cleanAlt r.alt⟩)]
      from by simp [mediaEntry, h]]
    by_cases hk : k = idDigits r
    · subst hk
      simp [cacheLookup, List.reverse_append, List.find?_cons]
    · have hbeq : (idDigits r == k) = false := beq_eq_false_iff_ne.mpr (Ne.symm hk)
      simp [cacheLookup, List.reverse_append, List.find?_cons, hbeq, hk, buildCacheList]

/-- Witness for C6: a skipped id-less record and last-occurrence lookup at a
concrete duplicate key. -/
theorem c6_media_cache_build_witness :
    buildCacheList ([⟨some "123", some "uA", none⟩] ++ [⟨some "x", some "uB", none⟩])
      = buildCacheList [⟨some "123", some "uA", none⟩] ∧
    cacheLookup (buildCacheList ([⟨some "9", some "uA", none⟩] ++ [⟨some "9", some "uB", none⟩]))
        "9"
      = some ⟨cleanUrl (some "uB"), cleanAlt none⟩ := by
  constructor
  · exact (c6_media_cache_build.2.2.2.2.2.2.2.2.2.1)
      [⟨some "123", some "uA", none⟩] ⟨some "x", some "uB", none⟩ (by decide)
  · have h := (c6_media_cache_build.2.2.2.2.2.2.2.2.2.2.1)
      [⟨some "9", some "uA", none⟩] ⟨some "9", some "uB", none⟩ (by decide) "9"
    rw [h]
    decide

/-- C7, counterexample: a row whose identifier matches a cached record with
an empty url is "filled" but not counted as fixed (fixedCount stays 0), and
a row with a non-empty but digit-free identifier field (`"abc"`) is not
recorded in the missing sample although it has no lookup match. -/
theorem c7_validator_counterexample :
    (validateRows [("12345", ⟨"", ""⟩)]
        [⟨"h", "12345", "", "", "", []⟩, ⟨"h", "abc", "", "", "", []⟩]).2.1 = 0 ∧
    (validateRows [("12345", ⟨"", ""⟩)]
        [⟨"h", "12345", "", "", "", []⟩, ⟨"h", "abc", "", "", "", []⟩]).2.2 = [] ∧
    cacheLookup [("12345", ⟨"", ""⟩)] "12345" = some ⟨"", ""⟩ ∧
    trimStr "12345" ≠ "" ∧ trimStr "" = "" ∧
    trimStr "abc" ≠ "" ∧ cacheLookup [("12345", ⟨"", ""⟩)] "abc" = none := by
  decide

/-- C7, amended: the validator visits every row and keeps them all (only the
URL field can change); for a row whose identifier field strips to a
non-empty digit string, an empty URL field with a lookup match is filled
from the lookup and counted as fixed exactly when the filled url is
non-empty, and a missing lookup match records the digit string in the sample
(capped at 50); rows whose identifier field contains no digits are skipped
entirely. -/
theorem c7_validator_amended (cache : List (String × MediaData)) (rows : List Row) :
    (validateRows cache rows).1 = rows.map (fun r => (fillUrlRow cache r).1) ∧
    (validateRows cache rows).1.length = rows.length ∧
    (∀ r : Row,
      (fillUrlRow cache r).1.handle = r.handle ∧
      (fillUrlRow cache r).1.variantImages = r.variantImages ∧
      (fillUrlRow cache r).1.imageAlt = r.imageAlt ∧
      (fillUrlRow cache r).1.option1 = r.option1 ∧
      (fillUrlRow cache r).1.rest = r.rest) ∧
    (∀ (r : Row) (m : MediaData), digitsOf (trimStr r.variantImages) ≠ "" →
      trimStr r.imageSrc = "" →
      cacheLookup cache (digitsOf (trimStr r.variantImages)) = some m →
      (fillUrlRow cache r).1.imageSrc = m.url ∧
      (fillUrlRow cache r).2.1 = (if m.url = "" then 0 else 1)) ∧
    (∀ r : Row, digitsOf (trimStr r.variantImages) ≠ "" →
      cacheLookup cache (digitsOf (trimStr r.variantImages)) = none →
      (fillUrlRow cache r).1 = r ∧
      (fillUrlRow cache r).2.2 = some (digitsOf (trimStr r.variantImages))) ∧
    (∀ r : Row, digitsOf (trimStr r.variantImages) = "" →
      fillUrlRow cache r = (r, 0, none)) ∧
    (validateRows cache rows).2.2.length ≤ 50 := by
  refine ⟨validateGo_fst cache rows 0 [], ?_, fillUrlRow_fields cache, ?_, ?_, ?_, ?_⟩
  · rw [validateRows, validateGo_fst, List.length_map]
  · intro r m h1 h2 hm
    have htrim : trimStr r.variantImages ≠ "" := by
      intro he; rw [he] at h1; exact h1 (by decide)
    constructor
    · simp [fillUrlRow, htrim, h1, h2, hm]
    · simp [fillUrlRow, htrim, h1, h2, hm]
  · intro r h1 hm
    have htrim : trimStr r.variantImages ≠ "" := by
      intro he; rw [he] at h1; exact h1 (by decide)
    constructor
    · simp [fillUrlRow, htrim, h1, hm]
    · simp [fillUrlRow, htrim, h1, hm]
  · intro r h1
    by_cases htrim : trimStr r.variantImages = ""
    · simp [fillUrlRow, htrim]
    · simp [fillUrlRow, htrim, h1]
  · exact validateGo_missing_le cache rows 0 [] (by simp)

/-- Witness for C7: the amended validator behavior at a concrete matched row
with a non-empty url. -/
theorem c7_validator_amended_witness :
    (fillUrlRow [("12345", ⟨"u", ""⟩)] ⟨"h", "12345", "", "", "", []⟩).1.imageSrc = "u" ∧
    (fillUrlRow [("12345", ⟨"u", ""⟩)] ⟨"h", "12345", "", "", "", []⟩).2.1
      = (if ("u" : String) = "" then 0 else 1) :=
  (c7_validator_amended [("12345", ⟨"u", ""⟩)] []).2.2.2.1
    ⟨"h", "12345", "", "", "", []⟩ ⟨"u", ""⟩ (by decide) (by decide) (by decide)

/-- C8, counterexample: with a cached url that is non-empty whitespace
(`" "`), the backfill re-counts the same row as fixed on every run: the
second run still reports fixedCount 1, not 0 (the table itself is
unchanged). -/
theorem c8_idempotence_counterexample :
    (validateRows [("12345", ⟨" ", ""⟩)]
        (validateRows [("12345", ⟨" ", ""⟩)] [⟨"h", "12345", "", "", "", []⟩]).1).2.1 = 1 ∧
    (validateRows [("12345", ⟨" ", ""⟩)]
        (validateRows [("12345", ⟨" ", ""⟩)] [⟨"h", "12345", "", "", "", []⟩]).1).1
      = (validateRows [("12345", ⟨" ", ""⟩)] [⟨"h", "12345", "", "", "", []⟩]).1 := by
  decide

/-- C8, amended: a second run of the backfill always leaves the table
unchanged — for every cache, whitespace-only cached urls included — and it
reports fixedCount 0 provided no cached record has a url that strips to
empty without being empty (i.e. whitespace-only); without that proviso a
whitespace-only url is re-counted every run. -/
theorem c8_idempotence_amended (cache : List (String × MediaData)) (rows : List Row) :
    (validateRows cache (validateRows cache rows).1).1 = (validateRows cache rows).1 ∧
    ((∀ k mm, cacheLookup cache k = some mm → trimStr mm.url = "" → mm.url = "") →
      (validateRows cache (validateRows cache rows).1).2.1 = 0) := by
  have hrow : ∀ r' ∈ (validateRows cache rows).1, (fillUrlRow cache r').1 = r' := by
    intro r' hr'
    rw [validateRows, validateGo_fst] at hr'
    rcases List.mem_map.mp hr' with ⟨r, _, rfl⟩
    exact (fillUrlRow_second cache r).1
  constructor
  · rw [validateRows, validateGo_fst]
    exact map_fillUrl_id cache _ hrow
  · intro hc
    have hfix : ∀ r' ∈ (validateRows cache rows).1,
        (fillUrlRow cache r').1 = r' ∧ (fillUrlRow cache r').2.1 = 0 := by
      intro r' hr'
      rw [validateRows, validateGo_fst] at hr'
      rcases List.mem_map.mp hr' with ⟨r, _, rfl⟩
      exact ⟨(fillUrlRow_second cache r).1, (fillUrlRow_second cache r).2 hc⟩
    exact (validateGo_fixed_of_fix cache _ 0 [] hfix).2

/-- Witness for C8: the unconditional table fixpoint at the whitespace-url
cache itself, and second-run fixedCount 0 on a concrete table whose cache
has no whitespace-only url. -/
theorem c8_idempotence_amended_witness :
    (validateRows [("12345", ⟨" ", ""⟩)]
        (validateRows [("12345", ⟨" ", ""⟩)] [⟨"h", "12345", "", "", "", []⟩]).1).1
      = (validateRows [("12345", ⟨" ", ""⟩)] [⟨"h", "12345", "", "", "", []⟩]).1 ∧
    (validateRows [] (validateRows [] [⟨"h", "12345", "", "", "", []⟩]).1).2.1 = 0 :=
  ⟨(c8_idempotence_amended [("12345", ⟨" ", ""⟩)] [⟨"h", "12345", "", "", "", []⟩]).1,
   (c8_idempotence_amended [] [⟨"h", "12345", "", "", "", []⟩]).2
     (by intro k mm hkm; simp [cacheLookup, List.find?] at hkm)⟩

/-- C9: the finalization keeps the row count; the top-row marker column is
`TRUE` exactly on rows with a non-empty handle that are the first of their
handle-group and whose original value was truthy, and blank everywhere else
(including blank-handle rows); the boolean-typed column is rendered as the
literal strings `TRUE`/`FALSE` on every row. -/
theorem c9_top_row_marker (rows : List TRow) :
    (finalizeTable rows).length = rows.length ∧
    (∀ (i : Nat) (r : TRow), rows.get? i = some r →
      (finalizeTable rows).get? i = some
        ⟨r.handle,
         (if (trimStr r.handle ≠ "" ∧ handleBefore r.handle rows i = false
              ∧ truthyStr r.top = true) then "TRUE" else ""),
         (if r.flag then "TRUE" else "FALSE")⟩) := by
  constructor
  · rw [finalizeTable, List.length_map, topPass_length]
  · intro i r h
    rw [finalizeTable, List.get?_map, topPass_get rows [] i r h]
    simp only [Option.map_some', renderRow]
    have hiff : (trimStr r.handle ≠ "" ∧ r.handle ∉ ([] : List String)
          ∧ handleBefore r.handle rows i = false ∧ truthyStr r.top = true)
        ↔ (trimStr r.handle ≠ "" ∧ handleBefore r.handle rows i = false
          ∧ truthyStr r.top = true) := by
      simp
    rw [if_congr hiff rfl rfl]

/-- Witness for C9: a handle with three expanded rows keeps `TRUE` only on
its first row; the boolean column is rendered textually. -/
theorem c9_top_row_marker_witness :
    (finalizeTable [⟨"h", "TRUE", true⟩, ⟨"h", "TRUE", false⟩, ⟨"h", "TRUE", true⟩]).get? 1
      = some ⟨"h", "", "FALSE"⟩ := by
  have h := (c9_top_row_marker
      [⟨"h", "TRUE", true⟩, ⟨"h", "TRUE", false⟩, ⟨"h", "TRUE", true⟩]).2
    1 ⟨"h", "TRUE", false⟩ (by decide)
  rw [h]
  decide

/-- C10: the backfill visits every output row, originals included, and keys
the lookup on the digit-stripped raw identifier field; the field
`"001,002"` is looked up as `"001002"`, recorded as missing when unmatched,
and an original row's empty URL field is overwritten when the concatenated
digit string matches a cache key, so the full pipeline can change original
rows. -/
theorem c10_backfill_concat_digits :
    (∀ (cache : List (String × MediaData)) (rows : List Row),
      (validateRows cache rows).1 = rows.map (fun r => (fillUrlRow cache r).1)) ∧
    (∀ (cache : List (String × MediaData)) (r : Row) (m : MediaData),
      trimStr r.imageSrc = "" →
      digitsOf (trimStr r.variantImages) ≠ "" →
      cacheLookup cache (digitsOf (trimStr r.variantImages)) = some m →
      (fillUrlRow cache r).1.imageSrc = m.url) ∧
    digitsOf (trimStr "001,002") = "001002" ∧
    processTables [⟨"h", "001,002", "", "", "Blue", []⟩] [⟨some "001002", some "u", none⟩]
      = ([⟨"h", "001,002", "u", "", "Blue", []⟩], 1, []) ∧
    ([⟨"h", "001,002", "u", "", "Blue", []⟩] : List Row)
      ≠ [⟨"h", "001,002", "", "", "Blue", []⟩] ∧
    (processTables [⟨"h", "001,002", "", "", "Blue", []⟩]
        [⟨some "12345", some "u", none⟩]).2.2 = ["001002"] := by
  refine ⟨?_, ?_, by decide, by decide, by decide, by decide⟩
  · intro cache rows
    exact validateGo_fst cache rows 0 []
  · intro cache r m h1 h2 hm
    have htrim : trimStr r.variantImages ≠ "" := by
      intro he; rw [he] at h2; exact h2 (by decide)
    simp [fillUrlRow, htrim, h2, hm, h1]

/-- Witness for C10: the digit-keyed backfill applied at a concrete original
row carrying two delimited identifiers. -/
theorem c10_backfill_concat_digits_witness :
    (fillUrlRow [("001002", ⟨"u", ""⟩)] ⟨"h", "001,002", "", "", "Blue", []⟩).1.imageSrc
      = "u" :=
  c10_backfill_concat_digits.2.1 [("001002", ⟨"u", ""⟩)]
    ⟨"h", "001,002", "", "", "Blue", []⟩ ⟨"u", ""⟩ (by decide) (by decide) (by decide)

end NV
